import Mathlib

/-!
Shallow embedding of `src/Python/data_structures/trees/trie.py`.

Words are modelled as `List Char` (Python iterates a `str` character by
character).  A Python `dict` keyed by characters is modelled as an
association list `List (Char × TrieNode)`: lookup finds the first entry
with the key, replacement replaces that entry in place, insertion of a
fresh key appends at the end, and `del` removes the entry — exactly the
observable behaviour of an insertion-ordered `dict` whose keys are unique.
Because a `dict` can never hold two entries with the same key, trie states
reachable through the Python API satisfy the well-formedness predicate
`wfNode` (pairwise-distinct keys at every node); theorems that depend on
key uniqueness take it as a hypothesis.
-/

/-- Class `TrieNode` from `trie.py`: a children mapping and the end-of-word flag. -/
inductive TrieNode : Type where
  | mk : List (Char × TrieNode) → Bool → TrieNode

/-- The `children` attribute of a node. -/
def TrieNode.children : TrieNode → List (Char × TrieNode)
  | .mk cs _ => cs

/-- The `is_end_of_word` attribute of a node. -/
def TrieNode.is_end_of_word : TrieNode → Bool
  | .mk _ e => e

/-- Constructor `TrieNode.__init__`: empty children, `is_end_of_word = False`. -/
def emptyNode : TrieNode := .mk [] false

/-- Dict lookup `node.children.get(char)` / `char in node.children`:
first entry with the given key. -/
def findChild : List (Char × TrieNode) → Char → Option TrieNode
  | [], _ => none
  | (k, t) :: rest, c => if k = c then some t else findChild rest c

/-- Dict write `node.children[char] = t`: replace the entry in place if the
key is present, otherwise append the new entry at the end. -/
def setChild : List (Char × TrieNode) → Char → TrieNode → List (Char × TrieNode)
  | [], c, t => [(c, t)]
  | (k, u) :: rest, c, t => if k = c then (c, t) :: rest else (k, u) :: setChild rest c t

/-- Dict removal `del node.children[char]`: drop the entry with the key. -/
def removeChild : List (Char × TrieNode) → Char → List (Char × TrieNode)
  | [], _ => []
  | (k, u) :: rest, c => if k = c then rest else (k, u) :: removeChild rest c

/-- Method `Trie.insert`, expressed on nodes: walk the word, creating missing
children (`TrieNode()` for an absent key), and mark the final node. -/
def insertNode : TrieNode → List Char → TrieNode
  | .mk cs _, [] => .mk cs true
  | .mk cs e, c :: w =>
      let child := (findChild cs c).getD emptyNode
      .mk (setChild cs c (insertNode child w)) e

/-- Method `Trie.search`, expressed on nodes: walk the word; `False` on a missing
child, otherwise the final node's `is_end_of_word`. -/
def searchNode : TrieNode → List Char → Bool
  | .mk _ e, [] => e
  | .mk cs _, c :: w =>
      match findChild cs c with
      | none => false
      | some child => searchNode child w

/-- Method `Trie.starts_with`, expressed on nodes: walk the word; `True` once the
whole prefix is consumed, `False` on a missing child. -/
def startsWithNode : TrieNode → List Char → Bool
  | _, [] => true
  | .mk cs _, c :: w =>
      match findChild cs c with
      | none => false
      | some child => startsWithNode child w

/-- The prefix-navigation loop shared by `get_all_words_with_prefix`:
the node reached by walking the word, if the path exists. -/
def findNode : TrieNode → List Char → Option TrieNode
  | n, [] => some n
  | .mk cs _, c :: w =>
      match findChild cs c with
      | none => none
      | some child => findNode child w

/-- Helper `_delete_helper` from `Trie.delete`, with the mutation made explicit:
returns the node after the call together with the boolean the helper
returns (whether the caller should delete this node).  When the flag is
`true` the parent discards the returned node. -/
def deleteHelper : TrieNode → List Char → TrieNode × Bool
  | .mk cs e, [] =>
      if e = false then (.mk cs e, false)
      else (.mk cs false, cs.isEmpty)
  | .mk cs e, c :: w =>
      match findChild cs c with
      | none => (.mk cs e, false)
      | some child =>
          let r := deleteHelper child w
          if r.2 then
            let cs' := removeChild cs c
            (.mk cs' e, cs'.isEmpty && !e)
          else
            (.mk (setChild cs c r.1) e, false)

mutual
/-- Helper `_count_helper` from `Trie.count_words`: 1 for a terminal node plus the
counts of all children. -/
def countNode : TrieNode → Nat
  | .mk cs e => (if e then 1 else 0) + countChildren cs
/-- The `for child in node.children.values()` loop of `_count_helper`. -/
def countChildren : List (Char × TrieNode) → Nat
  | [] => 0
  | (_, t) :: rest => countNode t + countChildren rest
end

mutual
/-- Helper `_get_all_words` from `Trie.get_all_words_with_prefix`: emit the word
built so far at a terminal node, then recurse into the children in order. -/
def collectNode : TrieNode → List Char → List (List Char)
  | .mk cs e, cur => (if e then [cur] else []) ++ collectChildren cs cur
/-- The `for char, child_node in node.children.items()` loop of
`_get_all_words`. -/
def collectChildren : List (Char × TrieNode) → List Char → List (List Char)
  | [], _ => []
  | (c, t) :: rest, cur => collectNode t (cur ++ [c]) ++ collectChildren rest cur
end

/-- One key is absent from a list of entries (boolean). -/
def keyAbsent (cs : List (Char × TrieNode)) (c : Char) : Bool :=
  cs.all (fun p => p.1 != c)

mutual
/-- Well-formedness of a reachable state: at every node the children keys
are pairwise distinct, as they are in a Python `dict`. -/
def wfNode : TrieNode → Bool
  | .mk cs _ => dedupKeys cs && wfChildren cs
/-- Pairwise-distinct keys of one children list. -/
def dedupKeys : List (Char × TrieNode) → Bool
  | [] => true
  | (c, _) :: rest => keyAbsent rest c && dedupKeys rest
/-- Well-formedness of every node in a children list. -/
def wfChildren : List (Char × TrieNode) → Bool
  | [] => true
  | (_, t) :: rest => wfNode t && wfChildren rest
end

/-- The `Trie` class: holds the root node. -/
structure Trie : Type where
  root : TrieNode

/-- Constructor `Trie.__init__`: a fresh root node. -/
def emptyTrie : Trie := ⟨emptyNode⟩

/-- Method `Trie.insert` (mutation made explicit: the trie after the call). -/
def Trie.insert (t : Trie) (w : List Char) : Trie := ⟨insertNode t.root w⟩

/-- Method `Trie.search`. -/
def Trie.search (t : Trie) (w : List Char) : Bool := searchNode t.root w

/-- Method `Trie.starts_with`. -/
def Trie.starts_with (t : Trie) (w : List Char) : Bool := startsWithNode t.root w

/-- Method `Trie.delete`: runs `_delete_helper` on the root (the root is never
removed, but its mutations persist), then returns
`not _delete_helper(...) or self.search(word) is False` evaluated on the
post-call state, together with that state. -/
def Trie.delete (t : Trie) (w : List Char) : Trie × Bool :=
  let r := deleteHelper t.root w
  (⟨r.1⟩, !r.2 || !(searchNode r.1 w))

/-- Method `Trie.get_all_words_with_prefix`: navigate to the prefix node (empty
result if the walk fails), then collect all words of its subtree starting
from the prefix. -/
def get_all_words_with_prefix (t : Trie) (p : List Char) : List (List Char) :=
  match findNode t.root p with
  | none => []
  | some node => collectNode node p

/-- Method `Trie.count_words`. -/
def Trie.count_words (t : Trie) : Nat := countNode t.root

/-- Well-formedness of a trie: its root is well-formed. -/
def Trie.wf (t : Trie) : Bool := wfNode t.root

mutual
/-- Invariant I2 on a subtree: this node has a child or is terminal, and
the same holds for every node below it. -/
def nodeI2 : TrieNode → Bool
  | .mk cs e => (!cs.isEmpty || e) && childrenI2 cs
/-- Invariant I2 on every node of a children list. -/
def childrenI2 : List (Char × TrieNode) → Bool
  | [] => true
  | (_, t) :: rest => nodeI2 t && childrenI2 rest
end

/-- Invariant I2 of the spec: every reachable node except the root has a
child or is terminal (no dangling non-terminal leaves). -/
def Trie.I2 (t : Trie) : Bool := childrenI2 t.root.children

/-- The `search` method as a state transformer: the result of the call and
the trie state after the call.  The method body only reads fields (the
loop rebinds the local `node`, never assigns `self.root` or any
`children`/`is_end_of_word` field), so the state after the call is the
state before it. -/
def Trie.searchCall (t : Trie) (w : List Char) : Bool × Trie := (Trie.search t w, t)

/-- The `starts_with` method as a state transformer (read-only body). -/
def Trie.startsWithCall (t : Trie) (p : List Char) : Bool × Trie := (Trie.starts_with t p, t)

/-- The `get_all_words_with_prefix` method as a state transformer: the
helper appends to the fresh local list `words` only; the returned list is
a new object, not a view into the trie. -/
def Trie.getAllWordsCall (t : Trie) (p : List Char) : List (List Char) × Trie :=
  ( get_all_words_with_prefix t p, t)

/-- The `count_words` method as a state transformer (read-only body). -/
def Trie.countWordsCall (t : Trie) : Nat × Trie := (Trie.count_words t, t)

/-! ### Generic lemmas about the children association lists -/

theorem sizeOf_lt_of_mem_child {c : Char} {t : TrieNode} {cs : List (Char × TrieNode)}
    (h : (c, t) ∈ cs) (e : Bool) : sizeOf t < sizeOf (TrieNode.mk cs e) := by
  have h1 := List.sizeOf_lt_of_mem h
  have h2 : sizeOf t < sizeOf (c, t) := by simp
  have h3 : sizeOf (TrieNode.mk cs e) = 1 + sizeOf cs + sizeOf e := by
    simp [TrieNode.mk.sizeOf_spec]
  omega

/-- Induction over a node and all its descendants. -/
theorem nodeInd {P : TrieNode → Prop}
    (h : ∀ cs e, (∀ c t, (c, t) ∈ cs → P t) → P (TrieNode.mk cs e)) :
    ∀ n, P n
  | TrieNode.mk cs e => h cs e (fun _ t hm => nodeInd h t)
termination_by n => sizeOf n
decreasing_by exact sizeOf_lt_of_mem_child hm e

theorem findChild_none_iff (cs : List (Char × TrieNode)) (c : Char) :
    findChild cs c = none ↔ keyAbsent cs c = true := by
  induction cs with
  | nil => simp [findChild, keyAbsent]
  | cons p rest ih =>
      obtain ⟨k, t⟩ := p
      by_cases h : k = c
      · subst h
        simp [findChild, keyAbsent]
      · simp only [findChild, keyAbsent, List.all_cons, if_neg h] at *
        simp [ih, keyAbsent, h]

theorem findChild_mem {cs : List (Char × TrieNode)} {c : Char} {u : TrieNode}
    (h : findChild cs c = some u) : (c, u) ∈ cs := by
  induction cs with
  | nil => simp [findChild] at h
  | cons p rest ih =>
      obtain ⟨k, t⟩ := p
      by_cases hk : k = c
      · subst hk
        simp [findChild] at h
        simp [h]
      · simp only [findChild, if_neg hk] at h
        exact List.mem_cons_of_mem _ (ih h)

theorem findChild_setChild_self (cs : List (Char × TrieNode)) (c : Char) (x : TrieNode) :
    findChild (setChild cs c x) c = some x := by
  induction cs with
  | nil => simp [setChild, findChild]
  | cons p rest ih =>
      obtain ⟨k, t⟩ := p
      by_cases h : k = c
      · subst h
        simp [setChild, findChild]
      · simp [setChild, findChild, h, ih]

theorem setChild_findChild_self {cs : List (Char × TrieNode)} {c : Char} {u : TrieNode}
    (h : findChild cs c = some u) : setChild cs c u = cs := by
  induction cs with
  | nil => simp [findChild] at h
  | cons p rest ih =>
      obtain ⟨k, t⟩ := p
      by_cases hk : k = c
      · subst hk
        simp [findChild] at h
        simp [setChild, h]
      · simp only [findChild, if_neg hk] at h
        simp [setChild, hk, ih h]

theorem findChild_none_of_keyAbsent {cs : List (Char × TrieNode)} {c : Char}
    (h : keyAbsent cs c = true) : findChild cs c = none :=
  (findChild_none_iff cs c).2 h

theorem findChild_removeChild_self {cs : List (Char × TrieNode)} {c : Char}
    (h : dedupKeys cs = true) : findChild (removeChild cs c) c = none := by
  induction cs with
  | nil => simp [removeChild, findChild]
  | cons p rest ih =>
      obtain ⟨k, t⟩ := p
      simp only [dedupKeys, Bool.and_eq_true] at h
      by_cases hk : k = c
      · subst hk
        simp only [removeChild, if_pos rfl]
        exact findChild_none_of_keyAbsent h.1
      · simp [removeChild, findChild, hk, ih h.2]

theorem countChildren_setChild_some {cs : List (Char × TrieNode)} {c : Char} {u : TrieNode}
    (h : findChild cs c = some u) (x : TrieNode) :
    countChildren (setChild cs c x) + countNode u = countChildren cs + countNode x := by
  induction cs with
  | nil => simp [findChild] at h
  | cons p rest ih =>
      obtain ⟨k, t⟩ := p
      by_cases hk : k = c
      · subst hk
        simp [findChild] at h
        subst h
        simp [setChild, countChildren]
        omega
      · simp only [findChild, if_neg hk] at h
        simp only [setChild, if_neg hk, countChildren]
        have := ih h
        omega

theorem countChildren_setChild_none {cs : List (Char × TrieNode)} {c : Char}
    (h : findChild cs c = none) (x : TrieNode) :
    countChildren (setChild cs c x) = countChildren cs + countNode x := by
  induction cs with
  | nil => simp [setChild, countChildren]
  | cons p rest ih =>
      obtain ⟨k, t⟩ := p
      by_cases hk : k = c
      · subst hk
        simp [findChild] at h
      · simp only [findChild, if_neg hk] at h
        simp only [setChild, if_neg hk, countChildren]
        have := ih h
        omega

theorem countChildren_removeChild {cs : List (Char × TrieNode)} {c : Char} {u : TrieNode}
    (h : findChild cs c = some u) :
    countNode u + countChildren (removeChild cs c) = countChildren cs := by
  induction cs with
  | nil => simp [findChild] at h
  | cons p rest ih =>
      obtain ⟨k, t⟩ := p
      by_cases hk : k = c
      · subst hk
        simp [findChild] at h
        subst h
        simp [removeChild, countChildren]
      · simp only [findChild, if_neg hk] at h
        simp only [removeChild, if_neg hk, countChildren]
        have := ih h
        omega

theorem wfChildren_findChild {cs : List (Char × TrieNode)} {c : Char} {u : TrieNode}
    (hw : wfChildren cs = true) (h : findChild cs c = some u) : wfNode u = true := by
  induction cs with
  | nil => simp [findChild] at h
  | cons p rest ih =>
      obtain ⟨k, t⟩ := p
      simp only [wfChildren, Bool.and_eq_true] at hw
      by_cases hk : k = c
      · subst hk
        simp [findChild] at h
        subst h
        exact hw.1
      · simp only [findChild, if_neg hk] at h
        exact ih hw.2 h

theorem keyAbsent_setChild {cs : List (Char × TrieNode)} {k c : Char} {x : TrieNode}
    (h : keyAbsent cs k = true) (hck : c ≠ k) : keyAbsent (setChild cs c x) k = true := by
  induction cs with
  | nil => simp [setChild, keyAbsent, hck]
  | cons p rest ih =>
      obtain ⟨k', t⟩ := p
      simp only [keyAbsent, List.all_cons, Bool.and_eq_true] at h
      by_cases hk : k' = c
      · subst hk
        simp [setChild, keyAbsent, hck, h.2]
      · simp only [setChild, if_neg hk, keyAbsent, List.all_cons, Bool.and_eq_true]
        exact ⟨h.1, ih h.2⟩

theorem dedupKeys_setChild {cs : List (Char × TrieNode)} {c : Char} {x : TrieNode}
    (h : dedupKeys cs = true) : dedupKeys (setChild cs c x) = true := by
  induction cs with
  | nil => simp [setChild, dedupKeys, keyAbsent]
  | cons p rest ih =>
      obtain ⟨k, t⟩ := p
      simp only [dedupKeys, Bool.and_eq_true] at h
      by_cases hk : k = c
      · subst hk
        simp only [setChild, if_pos rfl, dedupKeys, Bool.and_eq_true]
        exact ⟨h.1, h.2⟩
      · simp only [setChild, if_neg hk, dedupKeys, Bool.and_eq_true]
        refine ⟨keyAbsent_setChild h.1 (fun hc => hk hc.symm), ih h.2⟩

theorem wfChildren_setChild {cs : List (Char × TrieNode)} {c : Char} {x : TrieNode}
    (h : wfChildren cs = true) (hx : wfNode x = true) :
    wfChildren (setChild cs c x) = true := by
  induction cs with
  | nil => simp [setChild, wfChildren, hx]
  | cons p rest ih =>
      obtain ⟨k, t⟩ := p
      simp only [wfChildren, Bool.and_eq_true] at h
      by_cases hk : k = c
      · subst hk
        simp only [setChild, if_pos rfl, wfChildren, Bool.and_eq_true]
        exact ⟨hx, h.2⟩
      · simp only [setChild, if_neg hk, wfChildren, Bool.and_eq_true]
        exact ⟨h.1, ih h.2⟩

/-! ### Lemmas about the recursive operations on nodes -/

theorem searchNode_insertNode_self : ∀ (w : List Char) (n : TrieNode),
    searchNode (insertNode n w) w = true
  | [], .mk cs e => by simp [insertNode, searchNode]
  | c :: w, .mk cs e => by
      simp only [insertNode, searchNode, findChild_setChild_self]
      exact searchNode_insertNode_self w _

theorem wfNode_emptyNode : wfNode emptyNode = true := by
  simp [emptyNode, wfNode, dedupKeys, wfChildren]

theorem wfNode_insertNode : ∀ (w : List Char) (n : TrieNode),
    wfNode n = true → wfNode (insertNode n w) = true
  | [], .mk cs e => by
      intro h
      simp only [wfNode, Bool.and_eq_true] at h
      simp [insertNode, wfNode, h.1, h.2]
  | c :: w, .mk cs e => by
      intro h
      simp only [wfNode, Bool.and_eq_true] at h
      have hchild : wfNode ((findChild cs c).getD emptyNode) = true := by
        cases hf : findChild cs c with
        | none => simpa using wfNode_emptyNode
        | some u => simpa using wfChildren_findChild h.2 hf
      simp only [insertNode, wfNode, Bool.and_eq_true]
      exact ⟨dedupKeys_setChild h.1, wfChildren_setChild h.2 (wfNode_insertNode w _ hchild)⟩

theorem deleteHelper_of_search_false : ∀ (w : List Char) (n : TrieNode),
    searchNode n w = false → deleteHelper n w = (n, false)
  | [], .mk cs e => by
      intro h
      simp only [searchNode] at h
      simp [deleteHelper, h]
  | c :: w, .mk cs e => by
      intro h
      simp only [searchNode] at h
      cases hf : findChild cs c with
      | none => simp [deleteHelper, hf]
      | some child =>
          rw [hf] at h
          simp only [] at h
          have hrec := deleteHelper_of_search_false w child h
          simp [deleteHelper, hf, hrec, setChild_findChild_self hf]

theorem deleteHelper_prune (w : List Char) (n : TrieNode)
    (h : (deleteHelper n w).2 = true) : (deleteHelper n w).1 = TrieNode.mk [] false := by
  obtain ⟨cs, e⟩ := n
  cases w with
  | nil =>
      by_cases he : e = false
      · simp [deleteHelper, he] at h
      · have he' : e = true := by cases e <;> simp_all
        subst he'
        simp only [deleteHelper, if_neg he] at h ⊢
        have : cs = [] := by simpa using h
        simp [this]
  | cons c w =>
      cases hf : findChild cs c with
      | none => simp [deleteHelper, hf] at h
      | some child =>
          simp only [deleteHelper, hf] at h ⊢
          by_cases hr : (deleteHelper child w).2 = true
          · simp only [hr, if_pos] at h ⊢
            simp at h ⊢
            simp [h.1, h.2]
          · simp [hr] at h

theorem searchNode_deleteHelper : ∀ (w : List Char) (n : TrieNode),
    wfNode n = true → searchNode n w = true →
    searchNode (deleteHelper n w).1 w = false
  | [], .mk cs e => by
      intro hw hs
      simp only [searchNode] at hs
      subst hs
      simp [deleteHelper, searchNode]
  | c :: w, .mk cs e => by
      intro hw hs
      simp only [wfNode, Bool.and_eq_true] at hw
      simp only [searchNode] at hs
      cases hf : findChild cs c with
      | none => rw [hf] at hs; simp at hs
      | some child =>
          rw [hf] at hs
          simp only [] at hs
          have hwc := wfChildren_findChild hw.2 hf
          have ih := searchNode_deleteHelper w child hwc hs
          simp only [deleteHelper, hf]
          by_cases hr : (deleteHelper child w).2 = true
          · simp only [hr, if_pos]
            simp [searchNode, findChild_removeChild_self hw.1]
          · simp only [Bool.not_eq_true] at hr
            simp only [hr]
            simp [searchNode, findChild_setChild_self, ih]

theorem searchNode_emptyNode (w : List Char) : searchNode emptyNode w = false := by
  cases w <;> simp [searchNode, emptyNode, findChild]

theorem countNode_insertNode : ∀ (w : List Char) (n : TrieNode),
    countNode (insertNode n w) = countNode n + (if searchNode n w = true then 0 else 1)
  | [], .mk cs e => by cases e <;> simp [insertNode, countNode, searchNode] <;> omega
  | c :: w, .mk cs e => by
      cases hf : findChild cs c with
      | none =>
          have h1 := countChildren_setChild_none hf (insertNode emptyNode w)
          have h2 := countNode_insertNode w emptyNode
          rw [searchNode_emptyNode w] at h2
          have h3 : countNode emptyNode = 0 := rfl
          rw [h3] at h2
          simp only [insertNode, countNode, searchNode, hf, Option.getD_none]
          cases e <;> simp at h2 ⊢ <;> omega
      | some child =>
          have h1 := countChildren_setChild_some hf (insertNode child w)
          have h2 := countNode_insertNode w child
          simp only [insertNode, countNode, searchNode, hf, Option.getD_some]
          by_cases hs : searchNode child w = true <;>
            simp only [hs] at h2 ⊢ <;>
            cases e <;> simp at h2 ⊢ <;> omega

theorem countNode_deleteHelper : ∀ (w : List Char) (n : TrieNode),
    searchNode n w = true →
    countNode (deleteHelper n w).1 + 1 = countNode n
  | [], .mk cs e => by
      intro hs
      simp only [searchNode] at hs
      subst hs
      simp [deleteHelper, countNode]
      omega
  | c :: w, .mk cs e => by
      intro hs
      simp only [searchNode] at hs
      cases hf : findChild cs c with
      | none => rw [hf] at hs; simp at hs
      | some child =>
          rw [hf] at hs
          simp only [] at hs
          have ih := countNode_deleteHelper w child hs
          simp only [deleteHelper, hf]
          by_cases hr : (deleteHelper child w).2 = true
          · have hp := deleteHelper_prune w child hr
            rw [hp] at ih
            have hc1 : countNode child = 1 := by
              simp [countNode, countChildren] at ih
              omega
            have h2 := countChildren_removeChild hf
            simp only [hr, if_pos, countNode]
            cases e <;> simp <;> omega
          · simp only [Bool.not_eq_true] at hr
            simp only [hr]
            have h1 := countChildren_setChild_some hf (deleteHelper child w).1
            simp only [Bool.false_eq_true, if_false, countNode]
            cases e <;> simp <;> omega

theorem findChild_of_mem {cs : List (Char × TrieNode)} {c : Char} {u : TrieNode}
    (hd : dedupKeys cs = true) (h : (c, u) ∈ cs) : findChild cs c = some u := by
  induction cs with
  | nil => simp at h
  | cons p rest ih =>
      obtain ⟨k, t⟩ := p
      simp only [dedupKeys, Bool.and_eq_true] at hd
      rcases List.mem_cons.1 h with h1 | h1
      · obtain ⟨hc, hu⟩ := Prod.mk.injEq .. ▸ h1
        subst hc
        subst hu
        simp [findChild]
      · by_cases hk : k = c
        · exfalso
          subst hk
          have := hd.1
          simp only [keyAbsent, List.all_eq_true] at this
          have := this (k, u) h1
          simp at this
        · simp [findChild, hk, ih hd.2 h1]

theorem wfChildren_mem {cs : List (Char × TrieNode)} {c : Char} {t : TrieNode}
    (hw : wfChildren cs = true) (h : (c, t) ∈ cs) : wfNode t = true := by
  induction cs with
  | nil => simp at h
  | cons p rest ih =>
      obtain ⟨k, u⟩ := p
      simp only [wfChildren, Bool.and_eq_true] at hw
      rcases List.mem_cons.1 h with h1 | h1
      · obtain ⟨hc, hu⟩ := Prod.mk.injEq .. ▸ h1
        subst hu
        exact hw.1
      · exact ih hw.2 h1

theorem searchNode_append : ∀ (p : List Char) (n m : TrieNode) (s : List Char),
    findNode n p = some m → searchNode n (p ++ s) = searchNode m s
  | [], n, m, s => by
      intro h
      simp only [findNode, Option.some.injEq] at h
      subst h
      simp
  | c :: p, .mk cs e, m, s => by
      intro h
      cases hf : findChild cs c with
      | none => simp [findNode, hf] at h
      | some child =>
          simp only [findNode, hf] at h
          simp only [List.cons_append, searchNode, hf]
          exact searchNode_append p child m s h

theorem findNode_of_search : ∀ (p : List Char) (n : TrieNode) (s : List Char),
    searchNode n (p ++ s) = true → ∃ m, findNode n p = some m
  | [], n, s => fun _ => ⟨n, by simp [findNode]⟩
  | c :: p, .mk cs e, s => by
      intro h
      simp only [List.cons_append, searchNode] at h
      cases hf : findChild cs c with
      | none => rw [hf] at h; simp at h
      | some child =>
          rw [hf] at h
          simp only [] at h
          obtain ⟨m, hm⟩ := findNode_of_search p child s h
          exact ⟨m, by simp [findNode, hf, hm]⟩

theorem startsWithNode_of_findNode : ∀ (p : List Char) (n m : TrieNode),
    findNode n p = some m → startsWithNode n p = true
  | [], n, m => by
      intro _
      simp [startsWithNode]
  | c :: p, .mk cs e, m => by
      intro h
      cases hf : findChild cs c with
      | none => simp [findNode, hf] at h
      | some child =>
          simp only [findNode, hf] at h
          simp only [startsWithNode, hf]
          exact startsWithNode_of_findNode p child m h

/-! ### Lemmas about word enumeration (`_get_all_words`) -/

theorem collectChildren_decomp : ∀ (cs : List (Char × TrieNode)) (cur x : List Char),
    x ∈ collectChildren cs cur → ∃ c t, (c, t) ∈ cs ∧ x ∈ collectNode t (cur ++ [c]) := by
  intro cs
  induction cs with
  | nil => intro cur x h; simp [collectChildren] at h
  | cons p rest ih =>
      obtain ⟨c, t⟩ := p
      intro cur x h
      simp only [collectChildren, List.mem_append] at h
      rcases h with h | h
      · exact ⟨c, t, by simp, h⟩
      · obtain ⟨c', t', hmem, hx⟩ := ih cur x h
        exact ⟨c', t', List.mem_cons_of_mem _ hmem, hx⟩

theorem mem_collectChildren_of_mem {cs : List (Char × TrieNode)} {c : Char} {t : TrieNode}
    (h : (c, t) ∈ cs) {cur x : List Char} (hx : x ∈ collectNode t (cur ++ [c])) :
    x ∈ collectChildren cs cur := by
  induction cs with
  | nil => simp at h
  | cons p rest ih =>
      simp only [collectChildren]
      rcases List.mem_cons.1 h with h1 | h1
      · subst h1
        simp only [List.mem_append]
        exact Or.inl hx
      · obtain ⟨k, u⟩ := p
        simp only [List.mem_append]
        exact Or.inr (ih h1)

theorem collectNode_sound : ∀ (n : TrieNode), ∀ (cur w : List Char),
    wfNode n = true → w ∈ collectNode n cur →
    ∃ s, w = cur ++ s ∧ searchNode n s = true := by
  intro n
  induction n using nodeInd with
  | _ cs e ih =>
      intro cur w hw hm
      simp only [wfNode, Bool.and_eq_true] at hw
      have inner : ∀ cs', (∀ c t, (c, t) ∈ cs' → (c, t) ∈ cs) → ∀ x,
          x ∈ collectChildren cs' cur →
          ∃ c t s', (c, t) ∈ cs' ∧ x = cur ++ c :: s' ∧ searchNode t s' = true := by
        intro cs' hsub x hx
        obtain ⟨c, t, hmem, hct⟩ := collectChildren_decomp cs' cur x hx
        have hwt : wfNode t = true := wfChildren_mem hw.2 (hsub c t hmem)
        obtain ⟨s, hs1, hs2⟩ := ih c t (hsub c t hmem) (cur ++ [c]) x hwt hct
        refine ⟨c, t, s, hmem, ?_, hs2⟩
        simpa [List.append_assoc] using hs1
      simp only [collectNode, List.mem_append] at hm
      rcases hm with hm | hm
      · have he : e = true ∧ w = cur := by
          cases e
          · simp at hm
          · simp at hm
            exact ⟨rfl, hm⟩
        refine ⟨[], by simp [he.2], ?_⟩
        simp [searchNode, he.1]
      · obtain ⟨c, t, s', hmem, hw', hs'⟩ := inner cs (fun _ _ h => h) w hm
        have hf := findChild_of_mem hw.1 hmem
        exact ⟨c :: s', hw', by simp [searchNode, hf, hs']⟩

theorem collectNode_complete : ∀ (s : List Char) (n : TrieNode) (cur : List Char),
    searchNode n s = true → (cur ++ s) ∈ collectNode n cur
  | [], .mk cs e, cur => by
      intro h
      simp only [searchNode] at h
      simp [collectNode, h]
  | c :: s, .mk cs e, cur => by
      intro h
      simp only [searchNode] at h
      cases hf : findChild cs c with
      | none => rw [hf] at h; simp at h
      | some child =>
          rw [hf] at h
          simp only [] at h
          have hrec := collectNode_complete s child (cur ++ [c]) h
          have hmem := findChild_mem hf
          simp only [collectNode, List.mem_append]
          right
          apply mem_collectChildren_of_mem hmem
          simpa [List.append_assoc] using hrec

theorem collectNode_nodup : ∀ (n : TrieNode), ∀ (cur : List Char),
    wfNode n = true → (collectNode n cur).Nodup := by
  intro n
  induction n using nodeInd with
  | _ cs e ih =>
      intro cur hw
      simp only [wfNode, Bool.and_eq_true] at hw
      have hch : ∀ cs', (∀ c t, (c, t) ∈ cs' → (c, t) ∈ cs) → dedupKeys cs' = true →
          (collectChildren cs' cur).Nodup := by
        intro cs'
        induction cs' with
        | nil => intro _ _; simp [collectChildren]
        | cons p rest ihl =>
            obtain ⟨c, t⟩ := p
            intro hsub hd
            simp only [dedupKeys, Bool.and_eq_true] at hd
            simp only [collectChildren, List.nodup_append]
            have hmemcs : (c, t) ∈ cs := hsub c t (by simp)
            have hwt : wfNode t = true := wfChildren_mem hw.2 hmemcs
            refine ⟨ih c t hmemcs (cur ++ [c]) hwt,
                    ihl (fun a b hab => hsub a b (List.mem_cons_of_mem _ hab)) hd.2, ?_⟩
            intro x hx1 hx2
            obtain ⟨s, hs, _⟩ := collectNode_sound t (cur ++ [c]) x hwt hx1
            obtain ⟨c', t', hmem', hct'⟩ := collectChildren_decomp rest cur x hx2
            have hwt' : wfNode t' = true :=
              wfChildren_mem hw.2 (hsub c' t' (List.mem_cons_of_mem _ hmem'))
            obtain ⟨s', hs', _⟩ := collectNode_sound t' (cur ++ [c']) x hwt' hct'
            have hcc : c = c' := by
              rw [hs] at hs'
              have h0 : cur ++ c :: s = cur ++ c' :: s' := by
                simpa [List.append_assoc] using hs'
              have h1 := List.append_cancel_left h0
              simp at h1
              exact h1.1
            have habs := hd.1
            simp only [keyAbsent, List.all_eq_true] at habs
            have hne := habs (c', t') hmem'
            simp [hcc] at hne
      have hnodupch := hch cs (fun _ _ h => h) hw.1
      cases e with
      | false => simpa [collectNode] using hnodupch
      | true =>
          simp only [collectNode, List.nodup_append]
          refine ⟨by simp, by simpa using hnodupch, ?_⟩
          intro x hx1 hx2
          simp at hx1
          obtain ⟨c', t', hmem', hct'⟩ := collectChildren_decomp cs cur x hx2
          have hwt' : wfNode t' = true := wfChildren_mem hw.2 hmem'
          obtain ⟨s', hs', _⟩ := collectNode_sound t' (cur ++ [c']) x hwt' hct'
          rw [hx1] at hs'
          have hlen := congrArg List.length hs'
          simp only [List.length_append, List.length_cons] at hlen
          omega

theorem length_collectNode : ∀ (n : TrieNode), ∀ (cur : List Char),
    (collectNode n cur).length = countNode n := by
  intro n
  induction n using nodeInd with
  | _ cs e ih =>
      intro cur
      have inner : ∀ cs', (∀ c t, (c, t) ∈ cs' → (c, t) ∈ cs) →
          (collectChildren cs' cur).length = countChildren cs' := by
        intro cs'
        induction cs' with
        | nil => intro _; simp [collectChildren, countChildren]
        | cons p rest ihl =>
            obtain ⟨c, t⟩ := p
            intro hsub
            simp only [collectChildren, countChildren, List.length_append]
            rw [ih c t (hsub c t (by simp)) (cur ++ [c])]
            rw [ihl (fun a b hab => hsub a b (List.mem_cons_of_mem _ hab))]
      simp only [collectNode, List.length_append]
      rw [inner cs (fun _ _ h => h)]
      cases e <;> simp [countNode]

/-! ### Lemmas about invariant I2 -/

theorem childrenI2_mem {cs : List (Char × TrieNode)} {c : Char} {t : TrieNode}
    (h : childrenI2 cs = true) (hm : (c, t) ∈ cs) : nodeI2 t = true := by
  induction cs with
  | nil => simp at hm
  | cons p rest ih =>
      obtain ⟨k, u⟩ := p
      simp only [childrenI2, Bool.and_eq_true] at h
      rcases List.mem_cons.1 hm with h1 | h1
      · obtain ⟨hc, hu⟩ := Prod.mk.injEq .. ▸ h1
        subst hu
        exact h.1
      · exact ih h.2 h1

theorem childrenI2_findChild {cs : List (Char × TrieNode)} {c : Char} {u : TrieNode}
    (h : childrenI2 cs = true) (hf : findChild cs c = some u) : nodeI2 u = true :=
  childrenI2_mem h (findChild_mem hf)

theorem childrenI2_removeChild {cs : List (Char × TrieNode)} {c : Char}
    (h : childrenI2 cs = true) : childrenI2 (removeChild cs c) = true := by
  induction cs with
  | nil => simp [removeChild, childrenI2]
  | cons p rest ih =>
      obtain ⟨k, t⟩ := p
      simp only [childrenI2, Bool.and_eq_true] at h
      by_cases hk : k = c
      · simp only [removeChild, if_pos hk]
        exact h.2
      · simp only [removeChild, if_neg hk, childrenI2, Bool.and_eq_true]
        exact ⟨h.1, ih h.2⟩

theorem childrenI2_setChild {cs : List (Char × TrieNode)} {c : Char} {x : TrieNode}
    (h : childrenI2 cs = true) (hx : nodeI2 x = true) :
    childrenI2 (setChild cs c x) = true := by
  induction cs with
  | nil => simp [setChild, childrenI2, hx]
  | cons p rest ih =>
      obtain ⟨k, t⟩ := p
      simp only [childrenI2, Bool.and_eq_true] at h
      by_cases hk : k = c
      · simp only [setChild, if_pos hk, childrenI2, Bool.and_eq_true]
        exact ⟨hx, h.2⟩
      · simp only [setChild, if_neg hk, childrenI2, Bool.and_eq_true]
        exact ⟨h.1, ih h.2⟩

theorem setChild_isEmpty (cs : List (Char × TrieNode)) (c : Char) (x : TrieNode) :
    (setChild cs c x).isEmpty = false := by
  cases cs with
  | nil => simp [setChild]
  | cons p rest =>
      obtain ⟨k, t⟩ := p
      by_cases hk : k = c <;> simp [setChild, hk]

theorem nodeI2_eq (n : TrieNode) :
    nodeI2 n = ((!n.children.isEmpty || n.is_end_of_word) && childrenI2 n.children) := by
  obtain ⟨cs, e⟩ := n
  simp [nodeI2, TrieNode.children, TrieNode.is_end_of_word]

theorem deleteHelper_I2 : ∀ (w : List Char) (n : TrieNode),
    childrenI2 n.children = true →
    childrenI2 (deleteHelper n w).1.children = true ∧
    ((deleteHelper n w).2 = false →
      (!n.children.isEmpty || n.is_end_of_word) = true →
      (!(deleteHelper n w).1.children.isEmpty || (deleteHelper n w).1.is_end_of_word) = true)
  | [], .mk cs e => by
      intro h
      simp only [TrieNode.children] at h
      by_cases he : e = false
      · simp only [deleteHelper, if_pos he]
        exact ⟨h, fun _ hg => hg⟩
      · have he' : e = true := by cases e <;> simp_all
        subst he'
        simp only [deleteHelper, if_neg he, TrieNode.children, TrieNode.is_end_of_word]
        refine ⟨h, fun h2 _ => ?_⟩
        simp [h2]
  | c :: w, .mk cs e => by
      intro h
      simp only [TrieNode.children] at h
      cases hf : findChild cs c with
      | none =>
          simp only [deleteHelper, hf]
          exact ⟨h, fun _ hg => hg⟩
      | some child =>
          have hc2 := childrenI2_findChild h hf
          rw [nodeI2_eq child] at hc2
          simp only [Bool.and_eq_true] at hc2
          have ihc := deleteHelper_I2 w child hc2.2
          by_cases hr : (deleteHelper child w).2 = true
          · simp only [deleteHelper, hf, hr, if_pos, TrieNode.children, TrieNode.is_end_of_word]
            refine ⟨childrenI2_removeChild h, fun h2 _ => ?_⟩
            cases hre : (removeChild cs c).isEmpty <;> cases e <;> simp_all
          · simp only [Bool.not_eq_true] at hr
            simp only [deleteHelper, hf, hr, Bool.false_eq_true, if_false, TrieNode.children,
              TrieNode.is_end_of_word]
            have hgood := ihc.2 hr hc2.1
            have hx : nodeI2 (deleteHelper child w).1 = true := by
              rw [nodeI2_eq]
              simp only [Bool.and_eq_true]
              exact ⟨hgood, ihc.1⟩
            refine ⟨childrenI2_setChild h hx, fun _ _ => ?_⟩
            simp [setChild_isEmpty]

theorem wfNode_findNode : ∀ (p : List Char) (n m : TrieNode),
    wfNode n = true → findNode n p = some m → wfNode m = true
  | [], n, m => by
      intro hw h
      simp only [findNode, Option.some.injEq] at h
      subst h
      exact hw
  | c :: p, .mk cs e, m => by
      intro hw h
      simp only [wfNode, Bool.and_eq_true] at hw
      cases hf : findChild cs c with
      | none => simp [findNode, hf] at h
      | some child =>
          simp only [findNode, hf] at h
          exact wfNode_findNode p child m (wfChildren_findChild hw.2 hf) h

/-! ### The claims -/

/-- C1: the claim states that `delete(w)` returns `false` whenever `w` is
absent.  On the code this fails: deleting `"a"` from the empty trie — the
word is absent, `search` reports `false` — still returns `true`, because
line 196 computes `not _delete_helper(...) or self.search(word) is False`
and the helper's `False` ("do not prune the root") makes the first
disjunct `True`.  This contradicts the method's own docstring
("False if word doesn't exist"). -/
theorem claim_C1_delete_absent_returns_true :
    Trie.search emptyTrie ['a'] = false ∧ (Trie.delete emptyTrie ['a']).2 = true := by
  decide

/-- C2: for every well-formed trie state and word `w`, after `insert(w)`
the call `delete(w)` returns `true`, and afterwards `search(w)` is
`false`. -/
theorem claim_C2_insert_delete_search (t : Trie) (w : List Char) (hw : Trie.wf t = true) :
    (Trie.delete (Trie.insert t w) w).2 = true ∧
    Trie.search (Trie.delete (Trie.insert t w) w).1 w = false := by
  have hwf1 : wfNode (insertNode t.root w) = true := wfNode_insertNode w t.root hw
  have hs1 : searchNode (insertNode t.root w) w = true := searchNode_insertNode_self w t.root
  have hafter := searchNode_deleteHelper w (insertNode t.root w) hwf1 hs1
  constructor
  · simp [Trie.delete, Trie.insert, hafter]
  · simpa [Trie.delete, Trie.insert, Trie.search] using hafter

theorem claim_C2_witness :
    Trie.wf emptyTrie = true ∧
    ((Trie.delete (Trie.insert emptyTrie ['a']) ['a']).2 = true ∧
      Trie.search (Trie.delete (Trie.insert emptyTrie ['a']) ['a']).1 ['a'] = false) :=
  ⟨by decide, claim_C2_insert_delete_search emptyTrie ['a'] (by decide)⟩

/-- C3: from the empty trie, after `insert("app")` and `insert("apple")`,
`delete("app")` leaves `search("apple")` true and `search("app")` false:
the shared-prefix nodes survive. -/
theorem claim_C3_delete_isolation :
    Trie.search (Trie.delete (Trie.insert (Trie.insert emptyTrie ['a', 'p', 'p'])
        ['a', 'p', 'p', 'l', 'e']) ['a', 'p', 'p']).1 ['a', 'p', 'p', 'l', 'e'] = true ∧
    Trie.search (Trie.delete (Trie.insert (Trie.insert emptyTrie ['a', 'p', 'p'])
        ['a', 'p', 'p', 'l', 'e']) ['a', 'p', 'p']).1 ['a', 'p', 'p'] = false := by
  decide

/-- C4: for every trie state and word `w`, `insert(w)` followed by
`search(w)` returns `true`. -/
theorem claim_C4_insert_search_roundtrip (t : Trie) (w : List Char) :
    Trie.search (Trie.insert t w) w = true :=
  searchNode_insertNode_self w t.root

/-- C5: if `search(w)` is true then `starts_with(w[0:k])` is true for
every `k ≤ len(w)`, including the empty prefix (`k = 0`). -/
theorem claim_C5_prefix_monotonicity (t : Trie) (w : List Char)
    (h : Trie.search t w = true) :
    ∀ k, k ≤ w.length → Trie.starts_with t (List.take k w) = true := by
  intro k _
  have hsplit : w = List.take k w ++ List.drop k w := (List.take_append_drop k w).symm
  rw [hsplit] at h
  obtain ⟨m, hm⟩ := findNode_of_search (List.take k w) t.root (List.drop k w) h
  exact startsWithNode_of_findNode _ t.root m hm

theorem claim_C5_witness :
    Trie.search (Trie.insert emptyTrie ['a', 'b']) ['a', 'b'] = true ∧
    Trie.starts_with (Trie.insert emptyTrie ['a', 'b']) (List.take 1 ['a', 'b']) = true :=
  ⟨by decide,
    claim_C5_prefix_monotonicity (Trie.insert emptyTrie ['a', 'b']) ['a', 'b'] (by decide)
      1 (by decide)⟩

/-- C6: on a well-formed trie, `get_all_words_with_prefix(p)` has no
duplicates and contains exactly the words `w` with `search(w)` true whose
sequence starts with `p`; in particular `p` itself is in the result when
its node is terminal, and the result is empty when the path for `p` does
not exist. -/
theorem claim_C6_enumeration_exact (t : Trie) (p : List Char) (hw : Trie.wf t = true) :
    List.Nodup ( get_all_words_with_prefix t p) ∧
    ∀ w, w ∈ get_all_words_with_prefix t p ↔ (Trie.search t w = true ∧ p <+: w) := by
  constructor
  · cases hf : findNode t.root p with
    | none => simp [ get_all_words_with_prefix, hf]
    | some m =>
        simp only [ get_all_words_with_prefix, hf]
        exact collectNode_nodup m p (wfNode_findNode p t.root m hw hf)
  · intro w
    cases hf : findNode t.root p with
    | none =>
        simp only [ get_all_words_with_prefix, hf]
        constructor
        · intro h
          simp at h
        · rintro ⟨hs, s, hps⟩
          rw [← hps] at hs
          obtain ⟨m, hm⟩ := findNode_of_search p t.root s hs
          rw [hf] at hm
          cases hm
    | some m =>
        simp only [ get_all_words_with_prefix, hf]
        have hwm : wfNode m = true := wfNode_findNode p t.root m hw hf
        constructor
        · intro h
          obtain ⟨s, hs1, hs2⟩ := collectNode_sound m p w hwm h
          subst hs1
          refine ⟨?_, ⟨s, rfl⟩⟩
          calc searchNode t.root (p ++ s) = searchNode m s := searchNode_append p t.root m s hf
            _ = true := hs2
        · rintro ⟨hs, s, hps⟩
          have hms : searchNode m s = true := by
            rw [← searchNode_append p t.root m s hf, hps]
            exact hs
          have := collectNode_complete s m p hms
          rw [← hps]
          exact this

theorem claim_C6_witness :
    Trie.wf (Trie.insert (Trie.insert emptyTrie ['a', 'p', 'p']) ['a', 'p', 'p', 'l', 'e']) = true ∧
    List.Nodup ( get_all_words_with_prefix
      (Trie.insert (Trie.insert emptyTrie ['a', 'p', 'p']) ['a', 'p', 'p', 'l', 'e']) ['a', 'p']) ∧
    (['a', 'p', 'p', 'l', 'e'] ∈ get_all_words_with_prefix
        (Trie.insert (Trie.insert emptyTrie ['a', 'p', 'p']) ['a', 'p', 'p', 'l', 'e']) ['a', 'p'] ↔
      (Trie.search (Trie.insert (Trie.insert emptyTrie ['a', 'p', 'p']) ['a', 'p', 'p', 'l', 'e'])
          ['a', 'p', 'p', 'l', 'e'] = true ∧ ['a', 'p'] <+: ['a', 'p', 'p', 'l', 'e'])) :=
  ⟨by decide,
    (claim_C6_enumeration_exact _ ['a', 'p'] (by decide)).1,
    (claim_C6_enumeration_exact _ ['a', 'p'] (by decide)).2 ['a', 'p', 'p', 'l', 'e']⟩

/-- C7: `count_words()` counts the distinct stored words: 0 on the empty
trie; inserting a present word leaves it unchanged; inserting an absent
word increases it by one; deleting a present word decreases it by one; and
on a well-formed trie it equals the length of the duplicate-free list of
all stored words. -/
theorem claim_C7_count_consistency :
    Trie.count_words emptyTrie = 0 ∧
    (∀ (t : Trie) (w : List Char), Trie.search t w = true →
      Trie.count_words (Trie.insert t w) = Trie.count_words t) ∧
    (∀ (t : Trie) (w : List Char), Trie.search t w = false →
      Trie.count_words (Trie.insert t w) = Trie.count_words t + 1) ∧
    (∀ (t : Trie) (w : List Char), Trie.search t w = true →
      Trie.count_words (Trie.delete t w).1 + 1 = Trie.count_words t) ∧
    (∀ t : Trie, Trie.wf t = true →
      Trie.count_words t = List.length ( get_all_words_with_prefix t []) ∧
      List.Nodup ( get_all_words_with_prefix t [])) := by
  refine ⟨by decide, ?_, ?_, ?_, ?_⟩
  · intro t w h
    have h' : searchNode t.root w = true := h
    have := countNode_insertNode w t.root
    rw [h'] at this
    simpa [Trie.count_words, Trie.insert] using this
  · intro t w h
    have h' : searchNode t.root w = false := h
    have := countNode_insertNode w t.root
    rw [h'] at this
    simpa [Trie.count_words, Trie.insert] using this
  · intro t w h
    have := countNode_deleteHelper w t.root h
    simpa [Trie.count_words, Trie.delete] using this
  · intro t hw
    constructor
    · simp only [ get_all_words_with_prefix, findNode]
      exact (length_collectNode t.root []).symm
    · simp only [ get_all_words_with_prefix, findNode]
      exact collectNode_nodup t.root [] hw

theorem claim_C7_witness :
    Trie.search (Trie.insert emptyTrie ['a']) ['a'] = true ∧
    Trie.count_words (Trie.delete (Trie.insert emptyTrie ['a']) ['a']).1 + 1
      = Trie.count_words (Trie.insert emptyTrie ['a']) :=
  ⟨by decide, claim_C7_count_consistency.2.2.2.1 (Trie.insert emptyTrie ['a']) ['a'] (by decide)⟩

/-- C8: deleting an absent word (path break or terminal flag unset) leaves
the trie state completely unchanged, so every subsequent query returns the
same result as before the call. -/
theorem claim_C8_delete_absent_no_change (t : Trie) (w : List Char)
    (h : Trie.search t w = false) : (Trie.delete t w).1 = t := by
  obtain ⟨root⟩ := t
  have hh := deleteHelper_of_search_false w root h
  simp [Trie.delete, hh]

theorem claim_C8_witness :
    Trie.search (Trie.insert emptyTrie ['a']) ['b'] = false ∧
    (Trie.delete (Trie.insert emptyTrie ['a']) ['b']).1 = Trie.insert emptyTrie ['a'] :=
  ⟨by decide, claim_C8_delete_absent_no_change (Trie.insert emptyTrie ['a']) ['b'] (by decide)⟩

/-- C9: invariant I2 is preserved by delete: if no reachable non-root node
has an empty children mapping together with a cleared terminal flag, the
same holds after `delete(w)`, for any `w`. -/
theorem claim_C9_delete_preserves_I2 (t : Trie) (w : List Char) (h : Trie.I2 t = true) :
    Trie.I2 (Trie.delete t w).1 = true := by
  have := (deleteHelper_I2 w t.root (by simpa [Trie.I2] using h)).1
  simpa [Trie.I2, Trie.delete] using this

theorem claim_C9_witness :
    Trie.I2 (Trie.insert emptyTrie ['a', 'b']) = true ∧
    Trie.I2 (Trie.delete (Trie.insert emptyTrie ['a', 'b']) ['a', 'b']).1 = true :=
  ⟨by decide, claim_C9_delete_preserves_I2 (Trie.insert emptyTrie ['a', 'b']) ['a', 'b'] (by decide)⟩

/-- C10: the query operations `search`, `starts_with`,
`get_all_words_with_prefix` and `count_words` do not mutate the trie: the
state after each call is the state before it, and the list returned by
`get_all_words_with_prefix` is a pure value of the pre-call state (a
snapshot, unaffected by later mutation).  The bodies of these methods
assign no field of `self` or of any node, which the state-transformer
embedding records. -/
theorem claim_C10_queries_pure (t : Trie) (w p : List Char) :
    (Trie.searchCall t w).2 = t ∧
    (Trie.startsWithCall t p).2 = t ∧
    (Trie.getAllWordsCall t p).2 = t ∧
    (Trie.countWordsCall t).2 = t ∧
    (Trie.getAllWordsCall t p).1 = get_all_words_with_prefix t p :=
  ⟨rfl, rfl, rfl, rfl, rfl⟩
